import Mathlib

/-!
Verification development for the SFPL library wrap-up repository.

The definitions below are a shallow embedding of `src/library_app.py`:

* `normTitle` embeds `_normalize_title` (title normalization for matching),
  working over `List Char`; Python regular-expression steps are embedded as
  explicit recursive scans with the same semantics (in particular `.` in a
  Python regex does not match a newline, and `\s` is the ASCII whitespace
  class).  The Unicode-aware `str.lower` is modelled character-wise on the
  ASCII range (`pyToLower`).
* `mergeRatings` embeds `merge_ratings_into_library` (reconciliation of
  harvested titles with Goodreads ratings), including the pandas behaviour
  that `Series.map` with a non-unique mapper index raises and is caught by
  the surrounding `except`, and the `difflib.get_close_matches` fuzzy
  fallback.
* `harvest` embeds the page-scraping loop of `sfpl_2025` (structured
  extraction, indexed-fallback extraction, year classification via the
  "checked out on" sentinel, stop on a 2024 item, pagination).
-/

namespace SFPL

open scoped List

/-- ASCII whitespace, the characters matched by Python `\s` / stripped by
`str.strip` for ASCII input. -/
def isPySpace (c : Char) : Bool :=
  c = ' ' ∨ c = '\t' ∨ c = '\n' ∨ c = '\r' ∨ c = '\x0b' ∨ c = '\x0c'

/-- Opening bracket characters of the regex class `[\[(]`. -/
def isOpener (c : Char) : Bool := c = '(' ∨ c = '['

/-- Closing bracket characters of the regex class `[\])]`. -/
def isCloser (c : Char) : Bool := c = ')' ∨ c = ']'

/-- The punctuation class `[\.,;!?'\"]` removed by `_normalize_title`. -/
def isPunct (c : Char) : Bool :=
  c = '.' ∨ c = ',' ∨ c = ';' ∨ c = '!' ∨ c = '?' ∨ c = '\'' ∨ c = '"'

/-- Python `str.strip()`: drop leading and trailing whitespace. -/
def pyStrip (t : List Char) : List Char :=
  ((t.dropWhile isPySpace).reverse.dropWhile isPySpace).reverse

/-- Character-wise model of Python `str.lower()` on the ASCII range. -/
def pyToLower (c : Char) : Char :=
  if 65 ≤ c.toNat ∧ c.toNat ≤ 90 then Char.ofNat (c.toNat + 32) else c

/-- Python `str.lower()` applied character-wise. -/
def pyLower (t : List Char) : List Char := t.map pyToLower

/-- Scan of the regex fragment `.*?[\])]`: consume characters (each matched
by `.`, which does not match a newline) up to and including the nearest
closing bracket; return the remainder, or `none` when a newline or the end
of the string is reached first. -/
def dotScanCloser : List Char → Option (List Char)
  | [] => none
  | c :: rest =>
    if isCloser c then some rest
    else if c = '\n' then none
    else dotScanCloser rest

/-- One match attempt of the regex `\s*[\[(].*?[\])]\s*` at the current
position: leading whitespace, an opening bracket, a shortest `.`-path to a
closing bracket, trailing whitespace.  On success, returns the rest of the
input after the matched span. -/
def matchBrack (cs : List Char) : Option (List Char) :=
  match cs.dropWhile isPySpace with
  | [] => none
  | c :: rest =>
    if isOpener c then (dotScanCloser rest).map (fun r => r.dropWhile isPySpace)
    else none

/-- Left-to-right scan of `re.sub(r"\s*[\[(].*?[\])]\s*", " ", t)`: each
matched span is replaced by a single space, scanning resumes after the
span; fuel-indexed so that the definition is structurally recursive. -/
def subBracketsAux : Nat → List Char → List Char
  | 0, cs => cs
  | _ + 1, [] => []
  | fuel + 1, c :: rest =>
    match matchBrack (c :: rest) with
    | some after => ' ' :: subBracketsAux fuel after
    | none => c :: subBracketsAux fuel rest

/-- `re.sub(r"\s*[\[(].*?[\])]\s*", " ", t)` (a match always consumes at
least two characters, so `t.length` steps of fuel suffice). -/
def subBrackets (cs : List Char) : List Char := subBracketsAux cs.length cs

/-- `t.split(sep, 1)[0]` guarded by `if sep in t`: everything before the
first occurrence of `sep`, or `t` itself when `sep` does not occur. -/
def takeBefore (sep : List Char) : List Char → List Char
  | [] => []
  | c :: rest => if sep.isPrefixOf (c :: rest) then [] else c :: takeBefore sep rest

/-- The subtitle-separator truncation loop of `_normalize_title`, applied
in the source's priority order `":"`, `" - "`, `"-"`, `" — "`, `"—"`. -/
def cutSeps (t : List Char) : List Char :=
  takeBefore "—".data
    (takeBefore " — ".data
      (takeBefore "-".data
        (takeBefore " - ".data
          (takeBefore ":".data t))))

/-- `re.sub(r"[\.,;!?'\"]", " ", t)`: punctuation becomes a space. -/
def subPunct (t : List Char) : List Char :=
  t.map (fun c => if isPunct c then ' ' else c)

/-- `re.sub(r"\s+", " ", t)`: collapse every maximal whitespace run to a
single space. -/
def collapse : List Char → List Char
  | [] => []
  | [c] => if isPySpace c then [' '] else [c]
  | c :: d :: rest =>
    if isPySpace c then
      if isPySpace d then collapse (d :: rest)
      else ' ' :: collapse (d :: rest)
    else c :: collapse (d :: rest)

/-- Shallow embedding of `_normalize_title` from `src/library_app.py`
(string branch): strip and lowercase, remove bracketed spans, truncate at
subtitle separators, replace punctuation by spaces, collapse whitespace
runs and strip again. -/
def normTitle (s : List Char) : List Char :=
  pyStrip (collapse (subPunct (cutSeps (subBrackets (pyLower (pyStrip s))))))

/-- The character map underlying `collapse` (whitespace to a plain
space), used to relate `collapse t` to `t` as a sublist of a map. -/
def spaceToSp (c : Char) : Char := if isPySpace c then ' ' else c

/-- Invariant of bracket-removed text: no opening bracket is followed,
anywhere later in the string, by a closing bracket (so the bracket regex
can never match again). -/
def noOC (t : List Char) : Prop :=
  ∀ a b : Char, isOpener a = true → isCloser b = true → ¬ List.Sublist [a, b] t

/-- The no-two-adjacent-whitespace relation of collapsed text. -/
def noAdjR (a b : Char) : Prop := ¬(isPySpace a = true ∧ isPySpace b = true)

/-! ### Python value model for the non-string branch of `_normalize_title` -/

/-- A representative universe of Python values that may reach
`_normalize_title` (the function is called via `Series.map`, so `None`
and other non-strings are possible inputs). -/
inductive PyValue where
  | str (s : List Char)
  | pyNone
  | int (n : Int)
  | bool (b : Bool)
deriving DecidableEq

/-- Python truthiness, as used by `s or ""`. -/
def PyValue.truthy : PyValue → Bool
  | .str s => !s.isEmpty
  | .pyNone => false
  | .int n => n ≠ 0
  | .bool b => b

/-- `isinstance(s, str)`. -/
def PyValue.isStr : PyValue → Bool
  | .str _ => true
  | _ => false

/-- Python `str(...)` rendering of the modelled values. -/
def pyStr : PyValue → List Char
  | .str s => s
  | .pyNone => "None".data
  | .int n => (toString n).data
  | .bool b => if b then "True".data else "False".data

/-- `_normalize_title` on an arbitrary Python value: the guard
`if not isinstance(s, str): s = str(s or "")` coerces non-strings before
the normalization steps run. -/
def normTitlePy (v : PyValue) : List Char :=
  match v with
  | .str s => normTitle s
  | v => normTitle (if v.truthy then pyStr v else [])

/-! ### Model of the paginated harvest loop of `sfpl_2025`

The loop walks the "Recently Returned" pages.  On each page it waits for
the list container (`page.wait_for_selector`, raising on timeout), then
either enumerates the items of the CSS locator (structured path) or, when
the locator count is zero, probes 50 positional XPath slots (indexed
path, `loc.wait_for` raising when a slot never becomes visible).  Each
item's text is classified by scanning for "checked out on" and testing a
64-character window for "2025"/"2024"; a 2024 item stops the whole
harvest, a 2025 item is collected, anything else is skipped.  After a
page without a stop, clicking the next-page control either advances or —
when the control is missing, i.e. on the last page — ends the harvest
normally. -/

/-- One item block of the structured extraction path: its `inner_text`,
and whether/what the title and author sub-locators yield. -/
structure SItem where
  text : List Char
  titleOk : Bool
  titleText : List Char
  authorOk : Bool
  authorText : List Char
deriving DecidableEq

/-- One positional slot of the indexed-fallback path: whether it becomes
visible within its timeout, its text, and its title/author sub-fields. -/
structure Slot where
  visible : Bool
  text : List Char
  titleOk : Bool
  titleText : List Char
  authorOk : Bool
  authorText : List Char
deriving DecidableEq

/-- One page of the listing as the harvest observes it: whether the list
container becomes visible in time, the structured items (the CSS locator
count is their number), and the slots seen by the indexed fallback.  The
next-page control is present exactly on non-final pages of the listing. -/
structure Page where
  containerAvailable : Bool
  items : List SItem
  slots : List Slot
deriving DecidableEq

/-- One harvested record as appended to `library_books_2025`. -/
structure HItem where
  title : List Char
  author : List Char
  raw : List Char
deriving DecidableEq

/-- Why the harvest loop ended (it only ends normally by the 2024
sentinel or by failing to click a next-page control). -/
inductive StopReason where
  | sentinelYearFound
  | noFurtherPage
deriving DecidableEq

/-- `haystack.index(needle)` / `needle in haystack`: position of the
first occurrence of `pat`. -/
def firstIdx (pat : List Char) : List Char → Option Nat
  | [] => if pat.isPrefixOf ([] : List Char) then some 0 else Option.none
  | c :: rest =>
    if pat.isPrefixOf (c :: rest) then some 0
    else (firstIdx pat rest).map (· + 1)

/-- `pat in t` for strings. -/
def containsSub (pat t : List Char) : Bool := (firstIdx pat t).isSome

/-- The sentinel phrase searched for in each item's lowercased text. -/
def checkedOutOn : List Char := "checked out on".data

/-- Year classification of an item's text: find "checked out on" in the
lowercased text, take the 64-character window of the original text from
that position, and test "2025" before "2024"; no sentinel phrase or no
year in the window means the year is unknown. -/
def classifyYear (text : List Char) : Option Nat :=
  match firstIdx checkedOutOn (pyLower text) with
  | some i =>
    if containsSub "2025".data ((text.drop i).take 64) then some 2025
    else if containsSub "2024".data ((text.drop i).take 64) then some 2024
    else Option.none
  | Option.none => Option.none

/-- Placeholder used when a title cannot be extracted. -/
def unknownTitle : List Char := "(unknown title)".data

/-- Placeholder used when an author cannot be extracted. -/
def unknownAuthor : List Char := "(unknown author)".data

/-- The structured path's record: `title or "(unknown title)"` and
`author or "(unknown author)"` (`or` also replaces an empty string), and
`text.strip()` as the raw text. -/
def mkStructuredItem (it : SItem) : HItem :=
  ⟨if it.titleOk ∧ ¬it.titleText.isEmpty then it.titleText else unknownTitle,
    if it.authorOk ∧ ¬it.authorText.isEmpty then it.authorText else unknownAuthor,
    pyStrip it.text⟩

/-- The indexed path's record: `title_text if 'title_text' in locals()
else "(unknown title)"` — i.e. the most recently *successfully* extracted
title anywhere in the run (stale on a failed extraction), with the
placeholder only when no title was ever extracted — and
`author_text or "(unknown author)"`. -/
def mkIndexedItem (s : Slot) (lastTitle : Option (List Char)) : HItem :=
  ⟨lastTitle.getD unknownTitle,
    if s.authorOk ∧ ¬s.authorText.isEmpty then s.authorText else unknownAuthor,
    pyStrip s.text⟩

/-- The `title_text = ...` assignment inside its `try`: a successful
extraction overwrites the shared local, a failed one leaves it alone. -/
def updTitle (titleOk : Bool) (titleText : List Char) (lastTitle : Option (List Char)) :
    Option (List Char) :=
  if titleOk then some titleText else lastTitle

/-- The structured per-page item loop: thread the shared `title_text`
local and the accumulator; return the accumulator, whether a 2024 item
stopped the loop, and the final `title_text` state. -/
def processStructured :
    List SItem → Option (List Char) → List HItem →
      List HItem × Bool × Option (List Char)
  | [], lt, acc => (acc, false, lt)
  | it :: rest, lt, acc =>
    if classifyYear it.text = some 2024 then (acc, true, updTitle it.titleOk it.titleText lt)
    else if classifyYear it.text = some 2025 then
      processStructured rest (updTitle it.titleOk it.titleText lt)
        (acc ++ [mkStructuredItem it])
    else processStructured rest (updTitle it.titleOk it.titleText lt) acc

/-- The indexed per-page probe over slot indices 1..50: a slot that does
not exist or never becomes visible raises (`loc.wait_for` is not guarded
by a `try`), a 2024 slot stops the harvest, a 2025 slot is collected. -/
def probeSlots :
    Nat → List Slot → Option (List Char) → List HItem →
      Except Unit (List HItem × Bool × Option (List Char))
  | 0, _, lt, acc => Except.ok (acc, false, lt)
  | _ + 1, [], _, _ => Except.error ()
  | fuel + 1, s :: rest, lt, acc =>
    if s.visible then
      if classifyYear s.text = some 2024 then
        Except.ok (acc, true, updTitle s.titleOk s.titleText lt)
      else if classifyYear s.text = some 2025 then
        probeSlots fuel rest (updTitle s.titleOk s.titleText lt)
          (acc ++ [mkIndexedItem s (updTitle s.titleOk s.titleText lt)])
      else probeSlots fuel rest (updTitle s.titleOk s.titleText lt) acc
    else Except.error ()

/-- The outer `while True` page loop.  An unavailable list container
raises (`wait_for_selector` is unguarded); a zero item count selects the
indexed fallback; a 2024 stop returns the collected items; otherwise the
next-page click either advances (non-final page) or ends the harvest. -/
def harvestPages :
    List Page → Option (List Char) → List HItem →
      Except Unit (List HItem × StopReason)
  | [], _, _ => Except.error ()
  | p :: rest, lt, acc =>
    if p.containerAvailable then
      if p.items.isEmpty then
        match probeSlots 50 p.slots lt acc with
        | Except.error _ => Except.error ()
        | Except.ok (acc', stopped, lt') =>
          if stopped then Except.ok (acc', StopReason.sentinelYearFound)
          else if rest.isEmpty then Except.ok (acc', StopReason.noFurtherPage)
          else harvestPages rest lt' acc'
      else
        match processStructured p.items lt acc with
        | (acc', stopped, lt') =>
          if stopped then Except.ok (acc', StopReason.sentinelYearFound)
          else if rest.isEmpty then Except.ok (acc', StopReason.noFurtherPage)
          else harvestPages rest lt' acc'
    else Except.error ()

/-- The whole harvest, starting on page 1 with nothing collected and no
`title_text` local set. -/
def harvest (ps : List Page) : Except Unit (List HItem × StopReason) :=
  harvestPages ps Option.none []

/-- The stream of item texts the loop would inspect on one page:
structured items when the locator count is non-zero, otherwise the first
50 indexed slots. -/
def pageTexts (p : Page) : List (List Char) :=
  if p.items.isEmpty then (p.slots.take 50).map Slot.text else p.items.map SItem.text

/-- All item texts of the listing in traversal order. -/
def listingTexts : List Page → List (List Char)
  | [] => []
  | p :: ps => pageTexts p ++ listingTexts ps

/-- Follows the spec's words (P1, stop invariant): of the listing's item
stream, the items before the first 2024-classified one, filtered to those
classified as 2025. -/
def specHarvestTexts (ts : List (List Char)) : List (List Char) :=
  (ts.takeWhile (fun t => !(classifyYear t == some 2024))).filter
    (fun t => classifyYear t == some 2025)

/-- A page on which the harvest cannot raise: its container becomes
available, and if the structured locator count is zero then all 50 probed
slots exist and become visible. -/
def goodPage (p : Page) : Prop :=
  p.containerAvailable = true ∧
    (p.items.isEmpty = true →
      50 ≤ p.slots.length ∧ ∀ s ∈ p.slots.take 50, s.visible = true)

instance (p : Page) : Decidable (goodPage p) := by
  unfold goodPage
  infer_instance

/-! ### Model of `difflib.get_close_matches` (stdlib dependency of the
fuzzy fallback).  `SequenceMatcher.ratio` is `2*M/(len(a)+len(b))` where
`M` is the total size of the matching blocks.  The autojunk heuristic
only activates when the second sequence has at least 200 characters and
is not modelled: normalized title keys of that size do not arise here.
The float comparison `ratio >= 0.9` is modelled as the exact rational
comparison `20*M >= 9*(len(a)+len(b))`. -/

/-- Length of the common prefix of two character lists. -/
def commonPrefixLen : List Char → List Char → Nat
  | x :: xs, y :: ys => if x = y then commonPrefixLen xs ys + 1 else 0
  | _, _ => 0

/-- Length of the matching run of `a` from `i` and `b` from `j`, staying
below the bounds `ahi` and `bhi`. -/
def runLenFrom (a b : List Char) (i j ahi bhi : Nat) : Nat :=
  commonPrefixLen ((a.drop i).take (ahi - i)) ((b.drop j).take (bhi - j))

/-- `SequenceMatcher.find_longest_match` on the slice `a[alo:ahi]`,
`b[blo:bhi]`: the longest matching block, ties broken by the earliest
start in `a`, then in `b`. -/
def findLongest (a b : List Char) (alo ahi blo bhi : Nat) : Nat × Nat × Nat :=
  (List.range' alo (ahi - alo)).foldl
    (fun best i =>
      (List.range' blo (bhi - blo)).foldl
        (fun best j =>
          let k := runLenFrom a b i j ahi bhi
          if best.2.2 < k then (i, j, k) else best)
        best)
    (alo, blo, 0)

/-- Total matched size over `get_matching_blocks`' recursive subdivision,
with enough fuel for the recursion depth. -/
def mblocks : Nat → List Char → List Char → Nat → Nat → Nat → Nat → Nat
  | 0, _, _, _, _, _, _ => 0
  | fuel + 1, a, b, alo, ahi, blo, bhi =>
    let ijk := findLongest a b alo ahi blo bhi
    let i := ijk.1
    let j := ijk.2.1
    let k := ijk.2.2
    if k = 0 then 0
    else
      k + mblocks fuel a b alo i blo j + mblocks fuel a b (i + k) ahi (j + k) bhi

/-- Total matched size of `SequenceMatcher(a, b)`. -/
def smTotal (a b : List Char) : Nat :=
  mblocks (a.length + b.length + 1) a b 0 a.length 0 b.length

/-- Lexicographic code-point order on strings, as Python compares the
`str` components of `(ratio, candidate)` tuples inside `heapq.nlargest`. -/
def listLtChars : List Char → List Char → Bool
  | [], [] => false
  | [], _ :: _ => true
  | _ :: _, [] => false
  | x :: xs, y :: ys =>
    if x.toNat < y.toNat then true
    else if y.toNat < x.toNat then false
    else listLtChars xs ys

/-- `difflib.get_close_matches(word, poss, n=1, cutoff=0.9)`: the
candidate with the highest ratio among those whose ratio is at least the
cutoff (as `SequenceMatcher(x, word)`); on equal ratios
`heapq.nlargest` compares the `(ratio, candidate)` tuples themselves, so
the lexicographically largest candidate wins. -/
def getCloseMatch (word : List Char) (poss : List (List Char)) : Option (List Char) :=
  (poss.foldl
    (fun best x =>
      let m := smTotal x word
      if 9 * (x.length + word.length) ≤ 20 * m then
        match best with
        | Option.none => some (x, m)
        | some (bx, bm) =>
          if bm * (x.length + word.length) < m * (bx.length + word.length) then
            some (x, m)
          else if bm * (x.length + word.length) = m * (bx.length + word.length)
              ∧ listLtChars bx x = true then
            some (x, m)
          else best
      else best)
    Option.none).map Prod.fst

/-! ### Model of `merge_ratings_into_library` -/

/-- Final rating cell after `fillna('NR')`: a numeric Goodreads rating or
the placeholder `"NR"`.  Ratings are modelled as integers (`My Rating` in
a Goodreads export is a small integer). -/
inductive RatingCell where
  | nr
  | val (r : Int)
deriving DecidableEq

/-- Provenance of a rating, modelling the spec's `match_kind`: which code
path produced the row's rating (exact index hit, fuzzy fallback, or the
`fillna('NR')` default). -/
inductive MatchKind where
  | exact
  | fuzzy
  | none
deriving DecidableEq

/-- One reconciled output row: the harvested `title`/`author` extended
with the rating annotation. -/
structure AnnRow where
  title : List Char
  author : List Char
  rating : RatingCell
  kind : MatchKind
deriving DecidableEq

/-- Outcome of `merge_ratings_into_library`:
* `skippedNoData` — the guard `not gr.empty and 'Title' in gr.columns`
  failed, the library rows are returned without any rating column;
* `aborted` — an exception inside the merge (pandas `Series.map` with a
  non-unique mapper index raises `InvalidIndexError`) was caught by the
  function's outer `except`, the rows are returned without ratings;
* `merged` — the annotated table. -/
inductive MergeResult where
  | skippedNoData (rows : List (List Char × List Char))
  | aborted (rows : List (List Char × List Char))
  | merged (rows : List AnnRow)
deriving DecidableEq

/-- `gr.set_index('__key')['My Rating']` after
`gr['__key'] = gr['Title'].map(_normalize_title)`: the (possibly
duplicate-keyed) mapping from normalized keys to ratings, in row order. -/
def ratingPairs (gr : List (List Char × Int)) : List (List Char × Int) :=
  gr.map (fun p => (normTitle p.1, p.2))

/-- Lookup in the key-indexed ratings (first match; the index is only
consulted this way when it is unique). -/
def alookup : List (List Char × Int) → List Char → Option Int
  | [], _ => Option.none
  | p :: rest, k => if p.1 = k then some p.2 else alookup rest k

/-- `pandas.Series.unique()`: distinct values in order of first
occurrence. -/
def uniqFirstAux (seen : List (List Char)) : List (List Char) → List (List Char)
  | [] => []
  | x :: rest =>
    if x ∈ seen then uniqFirstAux seen rest
    else x :: uniqFirstAux (x :: seen) rest

/-- `list(gr['__key'].dropna().unique())` (normalized keys are never
null, so `dropna` is the identity here). -/
def uniqFirst (l : List (List Char)) : List (List Char) := uniqFirstAux [] l

/-- `_fuzzy_lookup`: `None` for an empty key, otherwise the rating of the
single best `difflib` candidate above the 0.9 cutoff. -/
def fuzzyRating (pairs : List (List Char × Int)) (k : List Char) : Option Int :=
  if k.isEmpty then Option.none
  else
    match getCloseMatch k (uniqFirst (pairs.map Prod.fst)) with
    | some m => alookup pairs m
    | Option.none => Option.none

/-- Per-row annotation (rows are independent: the exact `.map(rating_map)`
lookup, then the fuzzy fallback on the NA rows, then `fillna('NR')`). -/
def annotateRow (pairs : List (List Char × Int)) (row : List Char × List Char) : AnnRow :=
  match alookup pairs (normTitle row.1) with
  | some r => ⟨row.1, row.2, RatingCell.val r, MatchKind.exact⟩
  | Option.none =>
    match fuzzyRating pairs (normTitle row.1) with
    | some r => ⟨row.1, row.2, RatingCell.val r, MatchKind.fuzzy⟩
    | Option.none => ⟨row.1, row.2, RatingCell.nr, MatchKind.none⟩

/-- Shallow embedding of `merge_ratings_into_library`.  With an empty
reading log the guard skips the merge; with duplicate normalized keys the
`Series.map(rating_map)` call raises (non-unique index) and the outer
`except` returns the rows unannotated; otherwise every row is annotated. -/
def mergeRatings (lib : List (List Char × List Char)) (gr : List (List Char × Int)) :
    MergeResult :=
  if gr.isEmpty then MergeResult.skippedNoData lib
  else if (((ratingPairs gr).map Prod.fst).Nodup : Prop) then
    MergeResult.merged (lib.map (annotateRow (ratingPairs gr)))
  else MergeResult.aborted lib

/-!
## Theorems
-/

/-! ### Helper lemmas about `takeBefore` and `cutSeps` -/

theorem prefix_takeBefore (sep : List Char) : ∀ t : List Char, takeBefore sep t <+: t := by
  intro t
  induction t with
  | nil => simp [takeBefore]
  | cons c rest ih =>
    simp only [takeBefore]
    split
    · exact List.nil_prefix
    · exact ⟨ih.choose, by simpa using ih.choose_spec⟩

theorem not_mem_takeBefore_of_not_mem {x : Char} (sep : List Char) :
    ∀ t : List Char, x ∉ t → x ∉ takeBefore sep t := by
  intro t
  induction t with
  | nil => simp [takeBefore]
  | cons c rest ih =>
    intro hx
    simp only [takeBefore]
    split
    · simp
    · intro hmem
      rcases List.mem_cons.mp hmem with h | h
      · exact hx (by simp [h])
      · exact ih (fun hr => hx (List.mem_cons_of_mem _ hr)) h

theorem not_mem_takeBefore_single (x : Char) :
    ∀ t : List Char, x ∉ takeBefore [x] t := by
  intro t
  induction t with
  | nil => simp [takeBefore]
  | cons c rest ih =>
    simp only [takeBefore]
    split
    · simp
    · next hpre =>
      intro hmem
      rcases List.mem_cons.mp hmem with h | h
      · exact hpre (by simp [h, List.isPrefixOf])
      · exact ih h

theorem takeBefore_eq_self_of_not_mem {x : Char} {sep : List Char} (hsep : x ∈ sep) :
    ∀ t : List Char, x ∉ t → takeBefore sep t = t := by
  intro t
  induction t with
  | nil => intro; rfl
  | cons c rest ih =>
    intro hx
    simp only [takeBefore]
    split
    · next hpre =>
      exact absurd ((List.isPrefixOf_iff_prefix.mp hpre).subset hsep) hx
    · rw [ih (fun hr => hx (List.mem_cons_of_mem _ hr))]

theorem colon_not_mem_cutSeps (t : List Char) : ':' ∉ cutSeps t := by
  unfold cutSeps
  apply not_mem_takeBefore_of_not_mem
  apply not_mem_takeBefore_of_not_mem
  apply not_mem_takeBefore_of_not_mem
  apply not_mem_takeBefore_of_not_mem
  exact not_mem_takeBefore_single ':' t

theorem dash_not_mem_cutSeps (t : List Char) : '-' ∉ cutSeps t := by
  unfold cutSeps
  apply not_mem_takeBefore_of_not_mem
  apply not_mem_takeBefore_of_not_mem
  exact not_mem_takeBefore_single '-' _

theorem emdash_not_mem_cutSeps (t : List Char) : '—' ∉ cutSeps t := by
  unfold cutSeps
  exact not_mem_takeBefore_single '—' _

/-- **C7**: normalization truncates at the first occurrence of each
subtitle separator in the fixed priority order `":"`, `" - "`, `"-"`,
`" — "`, `"—"`, keeping only text before the separator — concretely,
`normalize("The Hobbit: There and Back Again (Illustrated)") =
"the hobbit"`, the truncation stage always yields a prefix of its input,
no separator character survives it, and it leaves separator-free inputs
unchanged. -/
theorem c7_subtitle_truncation :
    normTitle "The Hobbit: There and Back Again (Illustrated)".data = "the hobbit".data
    ∧ (∀ t : List Char, cutSeps t <+: t)
    ∧ (∀ t : List Char, ':' ∉ cutSeps t ∧ '-' ∉ cutSeps t ∧ '—' ∉ cutSeps t)
    ∧ (∀ t : List Char, ':' ∉ t → '-' ∉ t → '—' ∉ t → cutSeps t = t) := by
  refine ⟨by decide, ?_, ?_, ?_⟩
  · intro t
    unfold cutSeps
    exact ((((prefix_takeBefore _ _).trans (prefix_takeBefore _ _)).trans
      (prefix_takeBefore _ _)).trans (prefix_takeBefore _ _)).trans (prefix_takeBefore _ _)
  · exact fun t => ⟨colon_not_mem_cutSeps t, dash_not_mem_cutSeps t, emdash_not_mem_cutSeps t⟩
  · intro t hc hd he
    unfold cutSeps
    rw [takeBefore_eq_self_of_not_mem (by decide) t hc,
      takeBefore_eq_self_of_not_mem (x := '-') (by decide) t hd,
      takeBefore_eq_self_of_not_mem (x := '-') (by decide) t hd,
      takeBefore_eq_self_of_not_mem (x := '—') (by decide) t he,
      takeBefore_eq_self_of_not_mem (x := '—') (by decide) t he]

/-- Witness for C7: applying the truncation-identity part at a concrete
separator-free title. -/
theorem c7_subtitle_truncation_witness : cutSeps "dune".data = "dune".data :=
  c7_subtitle_truncation.2.2.2 "dune".data (by decide) (by decide) (by decide)


/-! ### Transport lemmas for the normalization stages -/

theorem infix_pyStrip (t : List Char) : pyStrip t <:+: t := by
  have h1 : t.dropWhile isPySpace <:+ t := List.dropWhile_suffix isPySpace
  have h2 : pyStrip t <+: t.dropWhile isPySpace := by
    unfold pyStrip
    conv_rhs => rw [← List.reverse_reverse (t.dropWhile isPySpace)]
    exact List.reverse_prefix.mpr (List.dropWhile_suffix isPySpace)
  exact h2.isInfix.trans h1.isInfix

theorem pyStrip_sublist (t : List Char) : pyStrip t <+ t :=
  (infix_pyStrip t).sublist

theorem mem_pyStrip {a : Char} {t : List Char} (h : a ∈ pyStrip t) : a ∈ t :=
  (pyStrip_sublist t).subset h

theorem dotScanCloser_sublist :
    ∀ {u r : List Char}, dotScanCloser u = some r → r <+ u := by
  intro u
  induction u with
  | nil => intro r h; exact absurd h (by simp [dotScanCloser])
  | cons c rest ih =>
    intro r h
    simp only [dotScanCloser] at h
    by_cases hc : isCloser c = true
    · rw [if_pos hc] at h
      injection h with h
      subst h
      exact (List.sublist_cons_self c rest)
    · rw [if_neg hc] at h
      by_cases hn : c = '\n'
      · rw [if_pos hn] at h
        exact absurd h (by simp)
      · rw [if_neg hn] at h
        exact (ih h).trans (List.sublist_cons_self c rest)

theorem dotScanCloser_length :
    ∀ {u r : List Char}, dotScanCloser u = some r → r.length < u.length := by
  intro u
  induction u with
  | nil => intro r h; exact absurd h (by simp [dotScanCloser])
  | cons c rest ih =>
    intro r h
    simp only [dotScanCloser] at h
    by_cases hc : isCloser c = true
    · rw [if_pos hc] at h
      injection h with h
      subst h
      simp
    · rw [if_neg hc] at h
      by_cases hn : c = '\n'
      · rw [if_pos hn] at h
        exact absurd h (by simp)
      · rw [if_neg hn] at h
        exact Nat.lt_trans (ih h) (by simp)

theorem dotScanCloser_none_no_closer :
    ∀ {u : List Char}, dotScanCloser u = none → '\n' ∉ u →
      ∀ b ∈ u, isCloser b = false := by
  intro u
  induction u with
  | nil => intro _ _ b hb; exact absurd hb (by simp)
  | cons c rest ih =>
    intro h hnl b hb
    simp only [dotScanCloser] at h
    by_cases hc : isCloser c = true
    · rw [if_pos hc] at h
      exact absurd h (by simp)
    · rw [if_neg hc] at h
      rcases List.mem_cons.mp hb with rfl | hb'
      · exact Bool.not_eq_true _ ▸ hc
      · by_cases hn : c = '\n'
        · exact absurd (hn ▸ List.mem_cons_self c rest) hnl
        · rw [if_neg hn] at h
          exact ih h (fun hm => hnl (List.mem_cons_of_mem _ hm)) b hb'

theorem dotScanCloser_some_closer :
    ∀ {u r : List Char}, dotScanCloser u = some r → ∃ b ∈ u, isCloser b = true := by
  intro u
  induction u with
  | nil => intro r h; exact absurd h (by simp [dotScanCloser])
  | cons c rest ih =>
    intro r h
    simp only [dotScanCloser] at h
    by_cases hc : isCloser c = true
    · exact ⟨c, List.mem_cons_self c rest, hc⟩
    · rw [if_neg hc] at h
      by_cases hn : c = '\n'
      · rw [if_pos hn] at h
        exact absurd h (by simp)
      · rw [if_neg hn] at h
        obtain ⟨b, hb, hbc⟩ := ih h
        exact ⟨b, List.mem_cons_of_mem _ hb, hbc⟩

theorem matchBrack_some_inv {cs after : List Char} (h : matchBrack cs = some after) :
    ∃ d rest2, cs.dropWhile isPySpace = d :: rest2 ∧ isOpener d = true ∧
      ∃ r, dotScanCloser rest2 = some r ∧ after = r.dropWhile isPySpace := by
  unfold matchBrack at h
  rcases hd : cs.dropWhile isPySpace with _ | ⟨d, rest2⟩
  · rw [hd] at h
    exact absurd h (by simp)
  · rw [hd] at h
    dsimp only at h
    by_cases hop : isOpener d = true
    · rw [if_pos hop] at h
      rcases hr : dotScanCloser rest2 with _ | r
      · rw [hr] at h
        exact absurd h (by simp)
      · rw [hr] at h
        injection h with h
        exact ⟨d, rest2, rfl, hop, r, hr, h.symm⟩
    · rw [if_neg hop] at h
      exact absurd h (by simp)

theorem matchBrack_sublist {cs after : List Char} (h : matchBrack cs = some after) :
    after <+ cs := by
  obtain ⟨d, rest2, hd, -, r, hr, hafter⟩ := matchBrack_some_inv h
  have h1 : after <+ r := hafter ▸ List.dropWhile_sublist isPySpace
  have h2 : r <+ rest2 := dotScanCloser_sublist hr
  have h3 : rest2 <+ d :: rest2 := List.sublist_cons_self d rest2
  have h4 : d :: rest2 <+ cs := hd ▸ (List.dropWhile_suffix isPySpace).sublist
  exact ((h1.trans h2).trans h3).trans h4

theorem matchBrack_length {cs after : List Char} (h : matchBrack cs = some after) :
    after.length < cs.length := by
  obtain ⟨d, rest2, hd, -, r, hr, hafter⟩ := matchBrack_some_inv h
  have h1 : after.length ≤ r.length := hafter ▸ (List.dropWhile_sublist isPySpace).length_le
  have h2 : r.length < rest2.length := dotScanCloser_length hr
  have h4 : (d :: rest2).length ≤ cs.length := (hd ▸ (List.dropWhile_suffix isPySpace).sublist).length_le
  simp only [List.length_cons] at h4
  omega

theorem mem_subBracketsAux :
    ∀ (fuel : Nat) (cs : List Char) (a : Char), a ∈ subBracketsAux fuel cs → a ∈ cs ∨ a = ' ' := by
  intro fuel
  induction fuel with
  | zero => intro cs a h; exact Or.inl h
  | succ f ih =>
    intro cs a h
    cases cs with
    | nil => exact absurd h (by simp [subBracketsAux])
    | cons c rest =>
      simp only [subBracketsAux] at h
      rcases hm : matchBrack (c :: rest) with _ | after
      · rw [hm] at h
        rcases List.mem_cons.mp h with rfl | h'
        · exact Or.inl (List.mem_cons_self _ _)
        · rcases ih rest a h' with hmem | hsp
          · exact Or.inl (List.mem_cons_of_mem _ hmem)
          · exact Or.inr hsp
      · rw [hm] at h
        rcases List.mem_cons.mp h with rfl | h'
        · exact Or.inr rfl
        · rcases ih after a h' with hmem | hsp
          · exact Or.inl ((matchBrack_sublist hm).subset hmem)
          · exact Or.inr hsp

theorem mem_collapse : ∀ (t : List Char) (a : Char), a ∈ collapse t → a ∈ t ∨ a = ' '
  | [], a => by simp [collapse]
  | [c], a => by
    simp only [collapse]
    by_cases hc : isPySpace c = true
    · rw [if_pos hc]
      intro h
      exact Or.inr (by simpa using h)
    · rw [if_neg hc]
      intro h
      exact Or.inl h
  | c :: d :: rest, a => by
    simp only [collapse]
    by_cases hc : isPySpace c = true
    · rw [if_pos hc]
      by_cases hd : isPySpace d = true
      · rw [if_pos hd]
        intro h
        rcases mem_collapse (d :: rest) a h with hm | hs
        · exact Or.inl (List.mem_cons_of_mem _ hm)
        · exact Or.inr hs
      · rw [if_neg hd]
        intro h
        rcases List.mem_cons.mp h with rfl | h'
        · exact Or.inr rfl
        · rcases mem_collapse (d :: rest) a h' with hm | hs
          · exact Or.inl (List.mem_cons_of_mem _ hm)
          · exact Or.inr hs
    · rw [if_neg hc]
      intro h
      rcases List.mem_cons.mp h with rfl | h'
      · exact Or.inl (List.mem_cons_self _ _)
      · rcases mem_collapse (d :: rest) a h' with hm | hs
        · exact Or.inl (List.mem_cons_of_mem _ hm)
        · exact Or.inr hs

theorem mem_subPunct {t : List Char} {a : Char} (h : a ∈ subPunct t) : a ∈ t ∨ a = ' ' := by
  obtain ⟨c, hc, hfc⟩ := List.mem_map.mp h
  by_cases hp : isPunct c = true
  · right
    rw [← hfc, if_pos hp]
  · left
    rwa [← hfc, if_neg hp]

theorem subPunct_not_punct {t : List Char} : ∀ a ∈ subPunct t, isPunct a = false := by
  intro a h
  obtain ⟨c, hc, hfc⟩ := List.mem_map.mp h
  by_cases hp : isPunct c = true
  · rw [← hfc, if_pos hp]
    decide
  · rw [← hfc, if_neg hp]
    exact Bool.not_eq_true _ ▸ hp

theorem prefix_cutSeps (t : List Char) : cutSeps t <+: t := by
  unfold cutSeps
  exact ((((prefix_takeBefore _ _).trans (prefix_takeBefore _ _)).trans
    (prefix_takeBefore _ _)).trans (prefix_takeBefore _ _)).trans (prefix_takeBefore _ _)

theorem mem_cutSeps {t : List Char} {a : Char} (h : a ∈ cutSeps t) : a ∈ t :=
  (prefix_cutSeps t).subset h

theorem cutSeps_eq_self {t : List Char} (hc : ':' ∉ t) (hd : '-' ∉ t) (he : '—' ∉ t) :
    cutSeps t = t := by
  unfold cutSeps
  rw [takeBefore_eq_self_of_not_mem (by decide) t hc,
    takeBefore_eq_self_of_not_mem (x := '-') (by decide) t hd,
    takeBefore_eq_self_of_not_mem (x := '-') (by decide) t hd,
    takeBefore_eq_self_of_not_mem (x := '—') (by decide) t he,
    takeBefore_eq_self_of_not_mem (x := '—') (by decide) t he]


/-! ### Identity of each stage on already-normalized text -/

theorem pyLower_eq_self {t : List Char} (h : ∀ a ∈ t, pyToLower a = a) : pyLower t = t := by
  unfold pyLower
  induction t with
  | nil => rfl
  | cons c rest ih =>
    rw [List.map_cons, h c (List.mem_cons_self _ _),
      ih (fun a ha => h a (List.mem_cons_of_mem _ ha))]

theorem subPunct_eq_self {t : List Char} (h : ∀ a ∈ t, isPunct a = false) : subPunct t = t := by
  unfold subPunct
  induction t with
  | nil => rfl
  | cons c rest ih =>
    rw [List.map_cons, if_neg (by simp [h c (List.mem_cons_self _ _)]),
      ih (fun a ha => h a (List.mem_cons_of_mem _ ha))]

/-! ### Whitespace canonicalization: `collapse` and `pyStrip` fixpoints -/

theorem collapse_onlySp : ∀ t : List Char, ∀ c ∈ collapse t, isPySpace c = true → c = ' '
  | [] => by simp [collapse]
  | [d] => by
    simp only [collapse]
    by_cases hd : isPySpace d = true
    · rw [if_pos hd]
      intro c hc _
      simpa using hc
    · rw [if_neg hd]
      intro c hc hsp
      have hcd : c = d := by simpa using hc
      subst hcd
      exact absurd hsp hd
  | c0 :: d :: rest => by
    simp only [collapse]
    by_cases hc0 : isPySpace c0 = true
    · rw [if_pos hc0]
      by_cases hd : isPySpace d = true
      · rw [if_pos hd]
        exact collapse_onlySp (d :: rest)
      · rw [if_neg hd]
        intro c hc hsp
        rcases List.mem_cons.mp hc with rfl | hmem
        · rfl
        · exact collapse_onlySp (d :: rest) c hmem hsp
    · rw [if_neg hc0]
      intro c hc hsp
      rcases List.mem_cons.mp hc with rfl | hmem
      · exact absurd hsp hc0
      · exact collapse_onlySp (d :: rest) c hmem hsp

theorem collapse_head_eq : ∀ (d : Char) (rest : List Char),
    (collapse (d :: rest)).head? = some (if isPySpace d = true then ' ' else d)
  | d, [] => by
    simp only [collapse]
    by_cases hd : isPySpace d = true
    · rw [if_pos hd, if_pos hd]
      rfl
    · rw [if_neg hd, if_neg hd]
      rfl
  | d, e :: rest => by
    simp only [collapse]
    by_cases hd : isPySpace d = true
    · rw [if_pos hd, if_pos hd]
      by_cases he : isPySpace e = true
      · rw [if_pos he, collapse_head_eq e rest, if_pos he]
      · rw [if_neg he]
        rfl
    · rw [if_neg hd, if_neg hd]
      rfl

theorem collapse_noAdj : ∀ t : List Char, List.Chain' noAdjR (collapse t)
  | [] => by simp [collapse]
  | [d] => by
    simp only [collapse]
    by_cases hd : isPySpace d = true
    · rw [if_pos hd]
      simp
    · rw [if_neg hd]
      simp
  | c :: d :: rest => by
    simp only [collapse]
    by_cases hc : isPySpace c = true
    · rw [if_pos hc]
      by_cases hd : isPySpace d = true
      · rw [if_pos hd]
        exact collapse_noAdj (d :: rest)
      · rw [if_neg hd]
        rw [List.chain'_cons']
        refine ⟨?_, collapse_noAdj (d :: rest)⟩
        intro y hy
        rw [collapse_head_eq d rest, if_neg hd] at hy
        have hyd : d = y := by simpa using hy
        subst hyd
        intro hcon
        exact absurd hcon.2 hd
    · rw [if_neg hc]
      rw [List.chain'_cons']
      refine ⟨?_, collapse_noAdj (d :: rest)⟩
      intro y hy
      intro hcon
      exact absurd hcon.1 hc

theorem collapse_eq_self : ∀ t : List Char,
    (∀ c ∈ t, isPySpace c = true → c = ' ') → List.Chain' noAdjR t → collapse t = t
  | [] => by
    intro _ _
    rfl
  | [d] => by
    intro h1 _
    simp only [collapse]
    by_cases hd : isPySpace d = true
    · rw [if_pos hd, h1 d (List.mem_cons_self _ _) hd]
    · rw [if_neg hd]
  | c :: d :: rest => by
    intro h1 h2
    simp only [collapse]
    by_cases hc : isPySpace c = true
    · by_cases hd : isPySpace d = true
      · exact absurd ⟨hc, hd⟩ (List.chain'_cons.mp h2).1
      · rw [if_pos hc, if_neg hd,
          collapse_eq_self (d :: rest) (fun x hx hsp => h1 x (List.mem_cons_of_mem _ hx) hsp)
            (List.chain'_cons.mp h2).2]
        rw [h1 c (List.mem_cons_self _ _) hc]
    · rw [if_neg hc,
        collapse_eq_self (d :: rest) (fun x hx hsp => h1 x (List.mem_cons_of_mem _ hx) hsp)
          (List.chain'_cons.mp h2).2]

theorem chain'_pyStrip {t : List Char} (h : List.Chain' noAdjR t) :
    List.Chain' noAdjR (pyStrip t) :=
  h.infix (infix_pyStrip t)

theorem dropWhile_dropWhile (p : Char → Bool) :
    ∀ l : List Char, (l.dropWhile p).dropWhile p = l.dropWhile p := by
  intro l
  induction l with
  | nil => rfl
  | cons c rest ih =>
    by_cases hc : p c = true
    · rw [List.dropWhile_cons_of_pos hc, ih]
    · rw [List.dropWhile_cons_of_neg hc, List.dropWhile_cons_of_neg hc]

theorem pyStrip_prefix_dropWhile (t : List Char) :
    pyStrip t <+: t.dropWhile isPySpace := by
  unfold pyStrip
  conv_rhs => rw [← List.reverse_reverse (t.dropWhile isPySpace)]
  exact List.reverse_prefix.mpr (List.dropWhile_suffix isPySpace)

theorem dropWhile_pyStrip (t : List Char) :
    (pyStrip t).dropWhile isPySpace = pyStrip t := by
  cases hBnil : pyStrip t with
  | nil => rfl
  | cons b bs =>
    have hhead : (t.dropWhile isPySpace).head? = some b := by
      obtain ⟨r, hr⟩ := pyStrip_prefix_dropWhile t
      rw [hBnil] at hr
      rw [← hr]
      rfl
    have hfb : isPySpace b = false := by
      have hmatch := List.head?_dropWhile_not isPySpace t
      rw [hhead] at hmatch
      exact hmatch
    rw [List.dropWhile_cons_of_neg (by simp [hfb])]

theorem pyStrip_idem (t : List Char) : pyStrip (pyStrip t) = pyStrip t := by
  have hrev : (pyStrip t).reverse = (t.dropWhile isPySpace).reverse.dropWhile isPySpace := by
    unfold pyStrip
    rw [List.reverse_reverse]
  have hdropRev : (pyStrip t).reverse.dropWhile isPySpace = (pyStrip t).reverse := by
    rw [hrev, dropWhile_dropWhile]
  conv_lhs => rw [pyStrip]
  rw [dropWhile_pyStrip, hdropRev, List.reverse_reverse]

/-! ### Character-level lemmas for `pyToLower` -/


theorem collapse_sublist_map : ∀ t : List Char, collapse t <+ t.map spaceToSp
  | [] => by simp [collapse]
  | [c] => by
    simp only [collapse, List.map_cons, List.map_nil]
    by_cases hc : isPySpace c = true
    · rw [if_pos hc]
      have hs : spaceToSp c = ' ' := by simp [spaceToSp, hc]
      rw [hs]
    · rw [if_neg hc]
      have hs : spaceToSp c = c := by simp [spaceToSp, hc]
      rw [hs]
  | c :: d :: rest => by
    simp only [collapse, List.map_cons]
    by_cases hc : isPySpace c = true
    · rw [if_pos hc]
      by_cases hd : isPySpace d = true
      · rw [if_pos hd]
        exact (collapse_sublist_map (d :: rest)).trans (List.sublist_cons_self _ _)
      · rw [if_neg hd]
        have hs : spaceToSp c = ' ' := by simp [spaceToSp, hc]
        rw [hs]
        exact List.cons_sublist_cons.mpr (collapse_sublist_map (d :: rest))
    · rw [if_neg hc]
      have hs : spaceToSp c = c := by simp [spaceToSp, hc]
      rw [hs]
      exact List.cons_sublist_cons.mpr (collapse_sublist_map (d :: rest))

/-! ### The bracket-free invariant `noOC` -/

theorem opener_not_space {c : Char} (h : isOpener c = true) : isPySpace c = false := by
  simp only [isOpener, decide_eq_true_eq] at h
  rcases h with rfl | rfl <;> decide

theorem noOC_nil : noOC [] := by
  intro a b _ _ hab
  simp at hab

theorem noOC_of_sublist {t t' : List Char} (hsub : t' <+ t) (h : noOC t) : noOC t' :=
  fun a b ha hb hab => h a b ha hb (hab.trans hsub)

theorem noOC_cons {c : Char} {t : List Char} :
    noOC (c :: t) ↔ noOC t ∧ (isOpener c = true → ∀ b ∈ t, isCloser b = false) := by
  constructor
  · intro h
    refine ⟨noOC_of_sublist (List.sublist_cons_self c t) h, ?_⟩
    intro hc b hb
    by_contra hcl
    have hcl' : isCloser b = true := by simpa using hcl
    exact h c b hc hcl' (List.cons_sublist_cons.mpr (List.singleton_sublist.mpr hb))
  · rintro ⟨h1, h2⟩ a b ha hb hab
    rcases List.sublist_cons_iff.mp hab with h' | ⟨r, hr, hrs⟩
    · exact h1 a b ha hb h'
    · injection hr with hac hr'
      subst hac
      subst hr'
      have hbmem : b ∈ t := List.singleton_sublist.mp hrs
      rw [h2 ha b hbmem] at hb
      exact Bool.false_ne_true hb

theorem noOC_map {f : Char → Char}
    (hop : ∀ c, isOpener (f c) = true → isOpener c = true)
    (hcl : ∀ c, isCloser (f c) = true → isCloser c = true)
    {t : List Char} (h : noOC t) : noOC (t.map f) := by
  intro a b ha hb hab
  rcases List.sublist_map_iff.mp hab with ⟨l', hl', heq⟩
  match l', heq with
  | [a', b'], heq =>
    injection heq with h1 heq
    injection heq with h2 _
    subst h1
    subst h2
    exact h a' b' (hop a' ha) (hcl b' hb) hl'

theorem spaceToSp_opener {c : Char} (h : isOpener (spaceToSp c) = true) :
    isOpener c = true := by
  by_cases hc : isPySpace c = true
  · rw [spaceToSp, if_pos hc] at h
    exact absurd h (by decide)
  · rwa [spaceToSp, if_neg hc] at h

theorem spaceToSp_closer {c : Char} (h : isCloser (spaceToSp c) = true) :
    isCloser c = true := by
  by_cases hc : isPySpace c = true
  · rw [spaceToSp, if_pos hc] at h
    exact absurd h (by decide)
  · rwa [spaceToSp, if_neg hc] at h

theorem noOC_collapse {t : List Char} (h : noOC t) : noOC (collapse t) :=
  noOC_of_sublist (collapse_sublist_map t)
    (noOC_map (fun _ => spaceToSp_opener) (fun _ => spaceToSp_closer) h)

theorem noOC_subPunct {t : List Char} (h : noOC t) : noOC (subPunct t) := by
  unfold subPunct
  refine noOC_map ?_ ?_ h
  · intro c hc
    by_cases hp : isPunct c = true
    · rw [if_pos hp] at hc
      exact absurd hc (by decide)
    · rwa [if_neg hp] at hc
  · intro c hc
    by_cases hp : isPunct c = true
    · rw [if_pos hp] at hc
      exact absurd hc (by decide)
    · rwa [if_neg hp] at hc

theorem noOC_subBracketsAux :
    ∀ (fuel : Nat) (cs : List Char), cs.length ≤ fuel → '\n' ∉ cs →
      noOC (subBracketsAux fuel cs) := by
  intro fuel
  induction fuel with
  | zero =>
    intro cs hlen _
    have hnil : cs = [] := List.length_eq_zero.mp (Nat.le_zero.mp hlen)
    subst hnil
    exact noOC_nil
  | succ f ih =>
    intro cs hlen hnl
    cases cs with
    | nil => exact noOC_nil
    | cons c rest =>
      simp only [subBracketsAux]
      rcases hm : matchBrack (c :: rest) with _ | after
      · rw [noOC_cons]
        constructor
        · exact ih rest (by simpa using Nat.le_of_succ_le_succ (by simpa using hlen))
            (fun hmem => hnl (List.mem_cons_of_mem _ hmem))
        · intro hc b hb
          have hnotsp := opener_not_space hc
          have hdw : (c :: rest).dropWhile isPySpace = c :: rest := by
            simp [List.dropWhile_cons, hnotsp]
          have hnone : dotScanCloser rest = none := by
            unfold matchBrack at hm
            rw [hdw] at hm
            dsimp only at hm
            rw [if_pos hc] at hm
            exact Option.map_eq_none'.mp hm
          have hrest := dotScanCloser_none_no_closer hnone
            (fun hmem => hnl (List.mem_cons_of_mem _ hmem))
          rcases mem_subBracketsAux f rest b hb with hmem | rfl
          · exact hrest b hmem
          · decide
      · rw [noOC_cons]
        refine ⟨?_, ?_⟩
        · refine ih after ?_ (fun hmem => hnl ((matchBrack_sublist hm).subset hmem))
          have hml := matchBrack_length hm
          simp only [List.length_cons] at hml hlen
          omega
        · intro hc
          exact absurd hc (by decide)

theorem noOC_subBrackets {t : List Char} (hnl : '\n' ∉ t) : noOC (subBrackets t) :=
  noOC_subBracketsAux t.length t (Nat.le_refl _) hnl

theorem subBracketsAux_eq_self :
    ∀ (fuel : Nat) (cs : List Char), noOC cs → subBracketsAux fuel cs = cs := by
  intro fuel
  induction fuel with
  | zero => intro cs _; rfl
  | succ f ih =>
    intro cs h
    cases cs with
    | nil => rfl
    | cons c rest =>
      simp only [subBracketsAux]
      rcases hm : matchBrack (c :: rest) with _ | after
      · rw [ih rest (noOC_cons.mp h).1]
      · obtain ⟨d, rest2, hd, hop, r, hr, -⟩ := matchBrack_some_inv hm
        obtain ⟨b, hb, hbc⟩ := dotScanCloser_some_closer hr
        have hsub : List.Sublist [d, b] (c :: rest) := by
          have h1 : List.Sublist [d, b] (d :: rest2) :=
            List.cons_sublist_cons.mpr (List.singleton_sublist.mpr hb)
          have h2 : (d :: rest2) <+ c :: rest :=
            hd ▸ (List.dropWhile_suffix isPySpace).sublist
          exact h1.trans h2
        exact absurd hsub (h d b hop hbc)

theorem subBrackets_eq_self {t : List Char} (h : noOC t) : subBrackets t = t :=
  subBracketsAux_eq_self t.length t h


theorem char_toNat_ofNat_of_lt {n : Nat} (h : n < 55296) : (Char.ofNat n).toNat = n := by
  have hv : n.isValidChar := Or.inl h
  simp only [Char.ofNat, hv, dif_pos]
  simp [Char.ofNatAux, Char.toNat, UInt32.toNat]

theorem pyToLower_toNat_of_upper {c : Char} (h : 65 ≤ c.toNat ∧ c.toNat ≤ 90) :
    (pyToLower c).toNat = c.toNat + 32 := by
  unfold pyToLower
  rw [if_pos h]
  exact char_toNat_ofNat_of_lt (by omega)

theorem pyToLower_idem (c : Char) : pyToLower (pyToLower c) = pyToLower c := by
  by_cases h : 65 ≤ c.toNat ∧ c.toNat ≤ 90
  · have ht := pyToLower_toNat_of_upper h
    have hno : ¬(65 ≤ (pyToLower c).toNat ∧ (pyToLower c).toNat ≤ 90) := by omega
    conv_lhs => rw [pyToLower]
    rw [if_neg hno]
  · have hc : pyToLower c = c := by unfold pyToLower; rw [if_neg h]
    rw [hc, hc]

theorem pyToLower_eq_newline {c : Char} (h : pyToLower c = '\n') : c = '\n' := by
  by_cases hu : 65 ≤ c.toNat ∧ c.toNat ≤ 90
  · have ht := pyToLower_toNat_of_upper hu
    rw [h, show ('\n').toNat = 10 from rfl] at ht
    omega
  · rw [← h]
    unfold pyToLower
    rw [if_neg hu]


/-! ### Invariants of `normTitle` output, and claim C6 -/

theorem normTitle_lowered (s : List Char) : ∀ a ∈ normTitle s, pyToLower a = a := by
  intro a ha
  have h1 := mem_pyStrip ha
  rcases mem_collapse _ _ h1 with h2 | rfl
  · rcases mem_subPunct h2 with h3 | rfl
    · have h4 := mem_cutSeps h3
      rcases mem_subBracketsAux _ _ _ h4 with h5 | rfl
      · obtain ⟨c, -, hfc⟩ := List.mem_map.mp h5
        rw [← hfc]
        exact pyToLower_idem c
      · decide
    · decide
  · decide

theorem normTitle_noOC {s : List Char} (hnl : '\n' ∉ s) : noOC (normTitle s) := by
  have hnlu : '\n' ∉ pyLower (pyStrip s) := by
    intro hmem
    obtain ⟨c, hc, hfc⟩ := List.mem_map.mp hmem
    exact hnl (mem_pyStrip (by rwa [pyToLower_eq_newline hfc] at hc))
  exact noOC_of_sublist (pyStrip_sublist _)
    (noOC_collapse (noOC_subPunct
      (noOC_of_sublist (prefix_cutSeps _).sublist (noOC_subBrackets hnlu))))

theorem normTitle_not_sep {s : List Char} {x : Char} (hx : x ≠ ' ')
    (hcut : ∀ t : List Char, x ∉ cutSeps t) : x ∉ normTitle s := by
  intro hmem
  have h1 := mem_pyStrip hmem
  rcases mem_collapse _ _ h1 with h2 | h2
  · rcases mem_subPunct h2 with h3 | h3
    · exact hcut _ h3
    · exact hx h3
  · exact hx h2

theorem normTitle_no_punct (s : List Char) : ∀ a ∈ normTitle s, isPunct a = false := by
  intro a ha
  have h1 := mem_pyStrip ha
  rcases mem_collapse _ _ h1 with h2 | rfl
  · exact subPunct_not_punct a h2
  · decide

theorem collapse_normTitle (s : List Char) : collapse (normTitle s) = normTitle s := by
  refine collapse_eq_self _ ?_ ?_
  · intro c hc hsp
    exact collapse_onlySp _ c (mem_pyStrip hc) hsp
  · exact chain'_pyStrip (collapse_noAdj _)

theorem pyStrip_normTitle (s : List Char) : pyStrip (normTitle s) = normTitle s :=
  pyStrip_idem (collapse (subPunct (cutSeps (subBrackets (pyLower (pyStrip s))))))

/-- **C6 amended**: `_normalize_title` is a pure function of its input
(the embedding is a function with no state), and it is idempotent on
every string containing no newline character.  (With a newline between
brackets, the first pass cannot remove the bracketed span — the regex `.`
does not match a newline — but whitespace collapsing then turns the
newline into a space, so a second pass removes the span: see the
counterexample.) -/
theorem c6_normalize_idempotent_no_newline (s : List Char) (hnl : '\n' ∉ s) :
    normTitle (normTitle s) = normTitle s := by
  conv_lhs => rw [normTitle]
  rw [pyStrip_normTitle s, pyLower_eq_self (normTitle_lowered s),
    subBrackets_eq_self (normTitle_noOC hnl),
    cutSeps_eq_self (normTitle_not_sep (by decide) colon_not_mem_cutSeps)
      (normTitle_not_sep (by decide) dash_not_mem_cutSeps)
      (normTitle_not_sep (by decide) emdash_not_mem_cutSeps),
    subPunct_eq_self (normTitle_no_punct s), collapse_normTitle s, pyStrip_normTitle s]

/-- Witness for C6 (amended) at a concrete newline-free title. -/
theorem c6_normalize_idempotent_no_newline_witness :
    normTitle (normTitle "Dune ".data) = normTitle "Dune ".data :=
  c6_normalize_idempotent_no_newline "Dune ".data (by decide)

/-- **C6 counterexample**: idempotence fails on `"(a\nb)"`.  In the first
pass the regex `.` cannot cross the newline, so the bracketed span
survives; whitespace collapsing then turns the newline into a space, and
the second pass removes the whole span. -/
theorem c6_idempotence_counterexample :
    normTitle (normTitle "(a\nb)".data) ≠ normTitle "(a\nb)".data := by decide

/-- **C10**: `_normalize_title` is total over the modelled Python-value
universe; a non-string falsy value (such as `None`) is coerced to the
empty string before normalization, hence normalizes exactly like `""`. -/
theorem c10_nonstring_coercion (v : PyValue) (h1 : v.isStr = false)
    (h2 : v.truthy = false) : normTitlePy v = normTitlePy (PyValue.str []) := by
  cases v with
  | str s => simp [PyValue.isStr] at h1
  | pyNone => rfl
  | int n => simp [normTitlePy, h2]
  | bool b => simp [normTitlePy, h2]

/-- Witness for C10 at the concrete input `None`. -/
theorem c10_nonstring_coercion_witness :
    normTitlePy PyValue.pyNone = normTitlePy (PyValue.str []) :=
  c10_nonstring_coercion PyValue.pyNone rfl rfl

/-! ### Reconciliation-engine lemmas and claims C2–C5 -/

theorem alookup_eq_some_of_mem {pairs : List (List Char × Int)} {k : List Char}
    (h : k ∈ pairs.map Prod.fst) : ∃ r, alookup pairs k = some r := by
  induction pairs with
  | nil => simp at h
  | cons p rest ih =>
    by_cases hpk : p.1 = k
    · exact ⟨p.2, by simp [alookup, hpk]⟩
    · simp only [alookup, if_neg hpk]
      apply ih
      simp only [List.map_cons, List.mem_cons] at h
      exact h.resolve_left (fun hk => hpk hk.symm)

theorem annotateRow_nr_iff_none (pairs : List (List Char × Int))
    (row : List Char × List Char) :
    ((annotateRow pairs row).rating = RatingCell.nr
      ↔ (annotateRow pairs row).kind = MatchKind.none) := by
  unfold annotateRow
  split
  · simp
  · split <;> simp

theorem mergeRatings_merged_inv {lib : List (List Char × List Char)}
    {gr : List (List Char × Int)} {rows : List AnnRow}
    (h : mergeRatings lib gr = MergeResult.merged rows) :
    rows = lib.map (annotateRow (ratingPairs gr)) := by
  unfold mergeRatings at h
  split at h
  · exact absurd h (by simp)
  · split at h
    · injection h with h
      exact h.symm
    · exact absurd h (by simp)

/-- **C2 counterexample**: with two distinct reading-log rows normalizing
to the same key (`"x: one"` and `"x: two"` both normalize to `"x"`), the
key index is non-unique, the exact lookup raises instead of applying
last-write-wins, and the whole merge is skipped by the outer `except`. -/
theorem c2_lww_counterexample :
    mergeRatings [("a book".data, "auth".data)]
        [("x: one".data, 1), ("x: two".data, 2)]
      = MergeResult.aborted [("a book".data, "auth".data)] := by decide

/-- **C2 amended**: when the reading-log's normalized keys are pairwise
distinct, the index is valid and every row is annotated through it; when
two distinct rows normalize to the same key, the exact lookup raises
(pandas `Series.map` with a non-unique index) and the merge returns the
rows unannotated — there is no last-write-wins. -/
theorem c2_duplicate_keys_abort (lib : List (List Char × List Char))
    (gr : List (List Char × Int)) (hne : gr.isEmpty = false) :
    (¬ ((ratingPairs gr).map Prod.fst).Nodup →
        mergeRatings lib gr = MergeResult.aborted lib)
    ∧ (((ratingPairs gr).map Prod.fst).Nodup →
        mergeRatings lib gr = MergeResult.merged (lib.map (annotateRow (ratingPairs gr)))) := by
  constructor
  · intro hdup
    unfold mergeRatings
    rw [hne]
    simp only [Bool.false_eq_true, if_false]
    rw [if_neg hdup]
  · intro hnd
    unfold mergeRatings
    rw [hne]
    simp only [Bool.false_eq_true, if_false]
    rw [if_pos hnd]

/-- Witness for C2 (amended), at a duplicate-keyed concrete log. -/
theorem c2_duplicate_keys_abort_witness :
    mergeRatings [("dune".data, "h".data)] [("y: p".data, 1), ("y: q".data, 2)]
      = MergeResult.aborted [("dune".data, "h".data)] :=
  (c2_duplicate_keys_abort [("dune".data, "h".data)]
    [("y: p".data, 1), ("y: q".data, 2)] rfl).1 (by decide)

/-- **C3 counterexample**: with a non-empty harvested table and an empty
reading log, the guard `not gr.empty` fails and the merge is skipped
entirely — the harvested rows come back without any rating annotation,
not annotated with `"NR"`. -/
theorem c3_empty_log_counterexample :
    mergeRatings [("dune".data, "h".data)] []
        = MergeResult.skippedNoData [("dune".data, "h".data)]
    ∧ mergeRatings [("dune".data, "h".data)] []
        ≠ MergeResult.merged [⟨"dune".data, "h".data, RatingCell.nr, MatchKind.none⟩] := by
  exact ⟨by decide, by decide⟩

/-- **C3 amended**: an empty reading-log table short-circuits the merge:
every harvested row is returned unchanged with no rating column and no
match diagnostic (the `"NR"`-for-everything outcome only arises from a
non-empty log with no matching keys). -/
theorem c3_empty_log_skips_merge (lib : List (List Char × List Char)) :
    mergeRatings lib [] = MergeResult.skippedNoData lib := rfl

/-- **C4 counterexample**: a harvested key (`"x one"`) is present in the
reading-log key index, yet its `match_kind` is not `exact` — duplicate
keys elsewhere in the log (`"y: p"`, `"y: q"`) make the index non-unique,
so the exact lookup raises and no row is annotated at all. -/
theorem c4_exact_priority_counterexample :
    normTitle "x one".data
        ∈ (ratingPairs [("x one".data, 5), ("y: p".data, 1), ("y: q".data, 2)]).map Prod.fst
    ∧ mergeRatings [("x one".data, "a".data)]
        [("x one".data, 5), ("y: p".data, 1), ("y: q".data, 2)]
      = MergeResult.aborted [("x one".data, "a".data)] := by
  exact ⟨by decide, by decide⟩

/-- **C4 amended**: provided the reading-log's normalized keys are
pairwise distinct (the exact-lookup index is valid), every harvested item
whose normalized key is present in the index is annotated from the exact
lookup with `match_kind = exact`, and the fuzzy fallback is never applied
to it (regardless of any higher-similarity candidate). -/
theorem c4_exact_match_priority (lib : List (List Char × List Char))
    (gr : List (List Char × Int)) (row : List Char × List Char)
    (hne : gr.isEmpty = false)
    (hnd : ((ratingPairs gr).map Prod.fst).Nodup)
    (hk : normTitle row.1 ∈ (ratingPairs gr).map Prod.fst) :
    mergeRatings lib gr = MergeResult.merged (lib.map (annotateRow (ratingPairs gr)))
    ∧ ∃ r, alookup (ratingPairs gr) (normTitle row.1) = some r
        ∧ annotateRow (ratingPairs gr) row
            = ⟨row.1, row.2, RatingCell.val r, MatchKind.exact⟩ := by
  refine ⟨?_, ?_⟩
  · unfold mergeRatings
    rw [hne]
    simp only [Bool.false_eq_true, if_false]
    rw [if_pos hnd]
  · obtain ⟨r, hr⟩ := alookup_eq_some_of_mem hk
    refine ⟨r, hr, ?_⟩
    unfold annotateRow
    rw [hr]

/-- Witness for C4 (amended): `"Dune: A Novel"` normalizes to `"dune"`,
which is present in the one-row index. -/
theorem c4_exact_match_priority_witness :
    annotateRow (ratingPairs [("dune".data, 5)]) ("Dune: A Novel".data, "h".data)
      = ⟨"Dune: A Novel".data, "h".data, RatingCell.val 5, MatchKind.exact⟩ := by
  obtain ⟨-, r, hr, hrow⟩ :=
    c4_exact_match_priority [("Dune: A Novel".data, "h".data)] [("dune".data, 5)]
      ("Dune: A Novel".data, "h".data) rfl (by decide) (by decide)
  have : r = 5 := by
    have : alookup (ratingPairs [("dune".data, 5)]) (normTitle "Dune: A Novel".data) = some 5 := by
      decide
    rw [this] at hr
    exact (Option.some.injEq _ _ ▸ hr.symm)
  rw [hrow, this]

/-- **C5**: in every completed reconciliation output, a row's rating is
the placeholder `"NR"` exactly when its `match_kind` is `none` (a numeric
rating is carried exactly by exact- or fuzzy-matched rows). -/
theorem c5_nr_iff_none (lib : List (List Char × List Char))
    (gr : List (List Char × Int)) (rows : List AnnRow)
    (h : mergeRatings lib gr = MergeResult.merged rows) :
    ∀ row ∈ rows, (row.rating = RatingCell.nr ↔ row.kind = MatchKind.none) := by
  have hrows := mergeRatings_merged_inv h
  subst hrows
  intro row hrow
  rcases List.mem_map.mp hrow with ⟨x, -, rfl⟩
  exact annotateRow_nr_iff_none _ _

/-- Witness for C5 on a concrete merged run. -/
theorem c5_nr_iff_none_witness :
    ((⟨"dune".data, "h".data, RatingCell.val 4, MatchKind.exact⟩ : AnnRow).rating
        = RatingCell.nr
      ↔ (⟨"dune".data, "h".data, RatingCell.val 4, MatchKind.exact⟩ : AnnRow).kind
        = MatchKind.none) :=
  c5_nr_iff_none [("dune".data, "h".data)] [("Dune".data, 4)]
    [⟨"dune".data, "h".data, RatingCell.val 4, MatchKind.exact⟩] (by decide)
    ⟨"dune".data, "h".data, RatingCell.val 4, MatchKind.exact⟩ (by decide)

/-! ### Harvest-loop lemmas and claims C1, C8, C9 -/

theorem specHarvestTexts_cons_2024 {t : List Char} {ts : List (List Char)}
    (h : classifyYear t = some 2024) : specHarvestTexts (t :: ts) = [] := by
  simp [specHarvestTexts, List.takeWhile_cons, h]

theorem specHarvestTexts_cons_2025 {t : List Char} {ts : List (List Char)}
    (h : classifyYear t = some 2025) :
    specHarvestTexts (t :: ts) = t :: specHarvestTexts ts := by
  simp [specHarvestTexts, List.takeWhile_cons, h, List.filter_cons]

theorem specHarvestTexts_cons_other {t : List Char} {ts : List (List Char)}
    (h24 : classifyYear t ≠ some 2024) (h25 : classifyYear t ≠ some 2025) :
    specHarvestTexts (t :: ts) = specHarvestTexts ts := by
  simp [specHarvestTexts, List.takeWhile_cons, h24, h25, List.filter_cons]

theorem specHarvestTexts_append (ts us : List (List Char)) :
    specHarvestTexts (ts ++ us)
      = if ts.any (fun t => classifyYear t == some 2024) then specHarvestTexts ts
        else specHarvestTexts ts ++ specHarvestTexts us := by
  induction ts with
  | nil => simp [specHarvestTexts]
  | cons t ts ih =>
    by_cases h24 : classifyYear t = some 2024
    · simp [List.any_cons, h24, specHarvestTexts_cons_2024 h24]
    · by_cases h25 : classifyYear t = some 2025
      · simp only [List.cons_append, specHarvestTexts_cons_2025 h25, ih, List.any_cons]
        simp [h24]
        split <;> rfl
      · simp only [List.cons_append, specHarvestTexts_cons_other h24 h25, ih, List.any_cons]
        simp [h24]

theorem processStructured_spec (items : List SItem) :
    ∀ (lt : Option (List Char)) (acc : List HItem),
      ((processStructured items lt acc).1).map HItem.raw
          = acc.map HItem.raw ++ (specHarvestTexts (items.map SItem.text)).map pyStrip
        ∧ (processStructured items lt acc).2.1
          = (items.map SItem.text).any (fun t => classifyYear t == some 2024) := by
  induction items with
  | nil => intro lt acc; simp [processStructured, specHarvestTexts]
  | cons it rest ih =>
    intro lt acc
    simp only [processStructured, List.map_cons]
    by_cases h24 : classifyYear it.text = some 2024
    · rw [if_pos h24]
      simp [specHarvestTexts_cons_2024 h24, List.any_cons, h24]
    · rw [if_neg h24]
      by_cases h25 : classifyYear it.text = some 2025
      · rw [if_pos h25]
        obtain ⟨h1, h2⟩ := ih (updTitle it.titleOk it.titleText lt) (acc ++ [mkStructuredItem it])
        constructor
        · rw [h1, specHarvestTexts_cons_2025 h25]
          simp [mkStructuredItem, List.append_assoc]
        · rw [h2]
          simp [List.any_cons, h24]
      · rw [if_neg h25]
        obtain ⟨h1, h2⟩ := ih (updTitle it.titleOk it.titleText lt) acc
        constructor
        · rw [h1, specHarvestTexts_cons_other h24 h25]
        · rw [h2]
          simp [List.any_cons, h24]

theorem probeSlots_spec :
    ∀ (fuel : Nat) (slots : List Slot) (lt : Option (List Char)) (acc acc' : List HItem)
      (stopped : Bool) (lt'' : Option (List Char)),
      probeSlots fuel slots lt acc = Except.ok (acc', stopped, lt'') →
      acc'.map HItem.raw
          = acc.map HItem.raw ++ (specHarvestTexts ((slots.take fuel).map Slot.text)).map pyStrip
        ∧ stopped = ((slots.take fuel).map Slot.text).any (fun t => classifyYear t == some 2024) := by
  intro fuel
  induction fuel with
  | zero =>
    intro slots lt acc acc' stopped lt'' h
    simp only [probeSlots] at h
    injection h with h
    injection h with ha h
    injection h with hs hl
    subst ha; subst hs
    simp [specHarvestTexts]
  | succ f ih =>
    intro slots lt acc acc' stopped lt'' h
    cases slots with
    | nil => simp [probeSlots] at h
    | cons s rest =>
      simp only [probeSlots] at h
      by_cases hsv : s.visible = true
      · rw [if_pos hsv] at h
        by_cases h24 : classifyYear s.text = some 2024
        · rw [if_pos h24] at h
          injection h with h
          injection h with ha h
          injection h with hs hl
          subst ha; subst hs
          simp [List.take_succ_cons, specHarvestTexts_cons_2024 h24, List.any_cons, h24]
        · rw [if_neg h24] at h
          by_cases h25 : classifyYear s.text = some 2025
          · rw [if_pos h25] at h
            obtain ⟨h1, h2⟩ := ih rest _ _ _ _ _ h
            constructor
            · rw [h1]
              simp [List.take_succ_cons, specHarvestTexts_cons_2025 h25, mkIndexedItem,
                List.append_assoc]
            · rw [h2]
              simp [List.take_succ_cons, List.any_cons, h24]
          · rw [if_neg h25] at h
            obtain ⟨h1, h2⟩ := ih rest _ _ _ _ _ h
            constructor
            · rw [h1]
              simp [List.take_succ_cons, specHarvestTexts_cons_other h24 h25]
            · rw [h2]
              simp [List.take_succ_cons, List.any_cons, h24]
      · rw [if_neg hsv] at h
        simp at h

theorem listingTexts_cons (p : Page) (ps : List Page) :
    listingTexts (p :: ps) = pageTexts p ++ listingTexts ps := rfl

theorem specHarvestTexts_nil : specHarvestTexts [] = [] := rfl

theorem harvestPages_spec :
    ∀ (ps : List Page) (lt : Option (List Char)) (acc res : List HItem) (reason : StopReason),
      harvestPages ps lt acc = Except.ok (res, reason) →
      res.map HItem.raw
        = acc.map HItem.raw ++ (specHarvestTexts (listingTexts ps)).map pyStrip := by
  intro ps
  induction ps with
  | nil =>
    intro lt acc res reason h
    simp only [harvestPages] at h
    exact Except.noConfusion h
  | cons p rest ih =>
    intro lt acc res reason h
    simp only [harvestPages] at h
    by_cases hc : p.containerAvailable = true
    · rw [if_pos hc] at h
      by_cases hie : p.items.isEmpty = true
      · rw [if_pos hie] at h
        rcases hpr : probeSlots 50 p.slots lt acc with e | out
        · rw [hpr] at h
          exact Except.noConfusion h
        · obtain ⟨acc', stopped, lt'⟩ := out
          rw [hpr] at h
          dsimp only at h
          obtain ⟨hmap, hstop⟩ := probeSlots_spec 50 p.slots lt acc acc' stopped lt' hpr
          have hpt : pageTexts p = (p.slots.take 50).map Slot.text := by
            simp [pageTexts, hie]
          cases stopped with
          | true =>
            rw [if_pos rfl] at h
            injection h with h
            injection h with ha hr
            subst ha
            rw [hmap]
            conv_rhs => rw [listingTexts_cons, specHarvestTexts_append]
            rw [if_pos (by rw [hpt]; exact hstop.symm), hpt]
          | false =>
            rw [if_neg (by simp)] at h
            cases rest with
            | nil =>
              simp only [List.isEmpty_nil, eq_self_iff_true, if_true] at h
              injection h with h
              injection h with ha hr
              subst ha
              rw [hmap]
              conv_rhs => rw [listingTexts_cons, specHarvestTexts_append]
              rw [if_neg (by rw [hpt, ← hstop]; simp), hpt]
              simp [specHarvestTexts_nil, listingTexts]
            | cons q qs =>
              rw [if_neg (by simp)] at h
              have hrec := ih lt' acc' res reason h
              rw [hrec, hmap]
              conv_rhs => rw [listingTexts_cons, specHarvestTexts_append]
              rw [if_neg (by rw [hpt, ← hstop]; simp), hpt]
              simp [List.append_assoc]
      · rw [if_neg hie] at h
        rcases hps : processStructured p.items lt acc with ⟨acc', stopped, lt'⟩
        rw [hps] at h
        dsimp only at h
        obtain ⟨hmap, hstop⟩ := processStructured_spec p.items lt acc
        rw [hps] at hmap hstop
        dsimp only at hmap hstop
        have hpt : pageTexts p = p.items.map SItem.text := by
          simp [pageTexts, hie]
        cases stopped with
        | true =>
          rw [if_pos rfl] at h
          injection h with h
          injection h with ha hr
          subst ha
          rw [hmap]
          conv_rhs => rw [listingTexts_cons, specHarvestTexts_append]
          rw [if_pos (by rw [hpt]; exact hstop.symm), hpt]
        | false =>
          rw [if_neg (by simp)] at h
          cases rest with
          | nil =>
            simp only [List.isEmpty_nil, eq_self_iff_true, if_true] at h
            injection h with h
            injection h with ha hr
            subst ha
            rw [hmap]
            conv_rhs => rw [listingTexts_cons, specHarvestTexts_append]
            rw [if_neg (by rw [hpt, ← hstop]; simp), hpt]
            simp [specHarvestTexts_nil, listingTexts]
          | cons q qs =>
            rw [if_neg (by simp)] at h
            have hrec := ih lt' acc' res reason h
            rw [hrec, hmap]
            conv_rhs => rw [listingTexts_cons, specHarvestTexts_append]
            rw [if_neg (by rw [hpt, ← hstop]; simp), hpt]
            simp [List.append_assoc]
    · rw [if_neg hc] at h
      exact Except.noConfusion h

/-- **C1**: whenever the harvest completes with a result, the collected
records are exactly (the stripped texts of) the items of the traversed
listing that precede the first 2024-classified item and are themselves
classified as 2025, in order — unknown-year items are skipped, and
nothing at or after the first 2024 item is included. -/
theorem c1_stop_invariant (ps : List Page) (res : List HItem) (reason : StopReason)
    (h : harvest ps = Except.ok (res, reason)) :
    res.map HItem.raw = (specHarvestTexts (listingTexts ps)).map pyStrip
    ∧ ∀ t ∈ specHarvestTexts (listingTexts ps), classifyYear t = some 2025 := by
  constructor
  · simpa using harvestPages_spec ps Option.none [] res reason h
  · intro t ht
    have := (List.mem_filter.mp ht).2
    simpa using this

/-- Witness for C1 on a concrete three-item listing (a 2025 item, an
unknown-year item, a 2024 item). -/
theorem c1_stop_invariant_witness :
    List.map HItem.raw [(⟨"Book A".data, "Ann A".data, "checked out on Dec 1, 2025".data⟩ : HItem)]
      = (specHarvestTexts (listingTexts
          [⟨true,
            [⟨"checked out on Dec 1, 2025".data, true, "Book A".data, true, "Ann A".data⟩,
              ⟨"no date here".data, true, "X".data, false, []⟩,
              ⟨"checked out on Dec 15, 2024".data, false, [], false, []⟩], []⟩])).map pyStrip :=
  (c1_stop_invariant
    [⟨true,
      [⟨"checked out on Dec 1, 2025".data, true, "Book A".data, true, "Ann A".data⟩,
        ⟨"no date here".data, true, "X".data, false, []⟩,
        ⟨"checked out on Dec 15, 2024".data, false, [], false, []⟩], []⟩]
    [⟨"Book A".data, "Ann A".data, "checked out on Dec 1, 2025".data⟩]
    StopReason.sentinelYearFound (by rfl)).1

theorem probeSlots_total :
    ∀ (fuel : Nat) (slots : List Slot) (lt : Option (List Char)) (acc : List HItem),
      fuel ≤ slots.length → (∀ s ∈ slots.take fuel, s.visible = true) →
      ∃ out, probeSlots fuel slots lt acc = Except.ok out := by
  intro fuel
  induction fuel with
  | zero => intro slots lt acc _ _; exact ⟨_, rfl⟩
  | succ f ih =>
    intro slots lt acc hlen hvis
    cases slots with
    | nil => simp at hlen
    | cons s rest =>
      have hsv : s.visible = true := hvis s (by simp [List.take_succ_cons])
      simp only [probeSlots, if_pos hsv]
      by_cases h24 : classifyYear s.text = some 2024
      · rw [if_pos h24]; exact ⟨_, rfl⟩
      · rw [if_neg h24]
        have hlen' : f ≤ rest.length := by simpa using hlen
        have hvis' : ∀ x ∈ rest.take f, x.visible = true := fun x hx =>
          hvis x (by simp [List.take_succ_cons, hx])
        by_cases h25 : classifyYear s.text = some 2025
        · rw [if_pos h25]; exact ih rest _ _ hlen' hvis'
        · rw [if_neg h25]; exact ih rest _ _ hlen' hvis'

theorem harvestPages_total :
    ∀ (ps : List Page) (lt : Option (List Char)) (acc : List HItem),
      ps ≠ [] → (∀ p ∈ ps, goodPage p) →
      ∃ out, harvestPages ps lt acc = Except.ok out := by
  intro ps
  induction ps with
  | nil => intro lt acc hne _; exact absurd rfl hne
  | cons p rest ih =>
    intro lt acc _ hgood
    obtain ⟨hc, hslots⟩ := hgood p (by simp)
    simp only [harvestPages, if_pos hc]
    by_cases hie : p.items.isEmpty = true
    · rw [if_pos hie]
      obtain ⟨hlen, hvis⟩ := hslots hie
      obtain ⟨out, hout⟩ := probeSlots_total 50 p.slots lt acc hlen hvis
      rw [hout]
      obtain ⟨acc', stopped, lt'⟩ := out
      cases stopped with
      | true => exact ⟨_, rfl⟩
      | false =>
        simp only [Bool.false_eq_true, if_false]
        cases rest with
        | nil => exact ⟨_, rfl⟩
        | cons q qs =>
          simp only [List.isEmpty_cons, Bool.false_eq_true, if_false]
          exact ih lt' acc' (by simp) (fun x hx => hgood x (List.mem_cons_of_mem _ hx))
    · rw [if_neg hie]
      rcases hps : processStructured p.items lt acc with ⟨acc', stopped, lt'⟩
      dsimp only
      cases stopped with
      | true => exact ⟨_, rfl⟩
      | false =>
        simp only [Bool.false_eq_true, if_false]
        cases rest with
        | nil => exact ⟨_, rfl⟩
        | cons q qs =>
          simp only [List.isEmpty_cons, Bool.false_eq_true, if_false]
          exact ih lt' acc' (by simp) (fun x hx => hgood x (List.mem_cons_of_mem _ hx))

/-- **C8 counterexample**: a run whose very first page container never
becomes available does not return collected items with a stop reason —
the unguarded `wait_for_selector` timeout propagates out of the loop. -/
theorem c8_counterexample :
    harvest [⟨false, [], []⟩] = Except.error () := by rfl

theorem probeSlots_error_of_invisible :
    ∀ (pre : List Slot) (fuel : Nat) (s : Slot) (rest : List Slot)
      (lt : Option (List Char)) (acc : List HItem),
      pre.length < fuel →
      (∀ x ∈ pre, x.visible = true ∧ classifyYear x.text ≠ some 2024) →
      s.visible = false →
      probeSlots fuel (pre ++ s :: rest) lt acc = Except.error () := by
  intro pre
  induction pre with
  | nil =>
    intro fuel s rest lt acc hlen _ hvis
    cases fuel with
    | zero => exact absurd hlen (by simp)
    | succ f =>
      simp only [List.nil_append, probeSlots]
      rw [if_neg (by simp [hvis])]
  | cons x pre' ih =>
    intro fuel s rest lt acc hlen hpre hvis
    cases fuel with
    | zero => exact absurd hlen (by simp)
    | succ f =>
      obtain ⟨hxv, hx24⟩ := hpre x (List.mem_cons_self _ _)
      simp only [List.cons_append, probeSlots]
      rw [if_pos hxv, if_neg hx24]
      have hlen' : pre'.length < f := by simpa using hlen
      have hpre' : ∀ y ∈ pre', y.visible = true ∧ classifyYear y.text ≠ some 2024 :=
        fun y hy => hpre y (List.mem_cons_of_mem _ hy)
      by_cases h25 : classifyYear x.text = some 2025
      · rw [if_pos h25]
        exact ih f s rest _ _ hlen' hpre' hvis
      · rw [if_neg h25]
        exact ih f s rest _ _ hlen' hpre' hvis

/-- **C8 amended**: the controller ends gracefully (collected items plus
a stop reason) on the 2024 sentinel and on a missing next-page control,
and never raises on a well-behaved listing; but an unavailable page
container (`page.wait_for_selector`, unguarded), or — in the indexed
fallback path — a probed slot that never becomes visible within its
timeout before the probe is stopped (`loc.wait_for`, unguarded), raises
a timeout error that propagates instead of returning the partial
result. -/
theorem c8_graceful_and_raising :
    (∀ ps : List Page, ps ≠ [] → (∀ p ∈ ps, goodPage p) →
      ∃ out, harvest ps = Except.ok out)
    ∧ (∀ (p : Page) (ps : List Page), p.containerAvailable = false →
      harvest (p :: ps) = Except.error ())
    ∧ (∀ (p : Page) (ps : List Page) (pre : List Slot) (s : Slot) (rest : List Slot),
      p.containerAvailable = true → p.items.isEmpty = true →
      p.slots = pre ++ s :: rest → pre.length < 50 →
      (∀ x ∈ pre, x.visible = true ∧ classifyYear x.text ≠ some 2024) →
      s.visible = false →
      harvest (p :: ps) = Except.error ()) := by
  refine ⟨?_, ?_, ?_⟩
  · intro ps hne hgood
    exact harvestPages_total ps Option.none [] hne hgood
  · intro p ps hc
    simp [harvest, harvestPages, hc]
  · intro p ps pre s rest hc hie hslots hlen hpre hvis
    show harvestPages (p :: ps) Option.none [] = Except.error ()
    simp only [harvestPages]
    rw [if_pos hc, if_pos hie, hslots,
      probeSlots_error_of_invisible pre 50 s rest Option.none [] hlen hpre hvis]

/-- Witness for C8 (amended): a concrete one-page good listing returns,
and a concrete indexed page whose second probed slot never becomes
visible raises. -/
theorem c8_graceful_and_raising_witness :
    (∃ out,
      harvest [⟨true, [⟨"checked out on Dec 15, 2024".data, false, [], false, []⟩], []⟩]
        = Except.ok out)
    ∧ harvest
        [⟨true, [],
          [⟨true, "checked out on Nov 1, 2025".data, true, "Book A".data, true, "Ann A".data⟩,
            ⟨false, "checked out on Nov 2, 2025".data, false, [], false, []⟩]⟩]
      = Except.error () :=
  ⟨c8_graceful_and_raising.1
    [⟨true, [⟨"checked out on Dec 15, 2024".data, false, [], false, []⟩], []⟩]
    (by simp) (by decide),
  c8_graceful_and_raising.2.2
    ⟨true, [],
      [⟨true, "checked out on Nov 1, 2025".data, true, "Book A".data, true, "Ann A".data⟩,
        ⟨false, "checked out on Nov 2, 2025".data, false, [], false, []⟩]⟩
    [] [⟨true, "checked out on Nov 1, 2025".data, true, "Book A".data, true, "Ann A".data⟩]
    ⟨false, "checked out on Nov 2, 2025".data, false, [], false, []⟩ []
    rfl rfl rfl (by decide) (by decide) rfl⟩

/-- **C9** (code bug, indexed path): a failed title extraction never
aborts the item — but instead of the `"(unknown title)"` placeholder, the
item is appended with the *stale* previously extracted title, because
`'title_text' in locals()` stays true once any earlier item's title
succeeded.  The structured path does substitute the placeholder.  Here
slot 2's title extraction fails and its record reuses slot 1's title. -/
theorem c9_stale_title_eval :
    harvest
        [⟨true, [],
          [⟨true, "checked out on Nov 1, 2025".data, true, "Book A".data, true, "Ann A".data⟩,
            ⟨true, "checked out on Nov 2, 2025".data, false, [], true, "Ann B".data⟩,
            ⟨true, "checked out on Dec 9, 2024".data, false, [], false, []⟩]⟩]
      = Except.ok
          ([⟨"Book A".data, "Ann A".data, "checked out on Nov 1, 2025".data⟩,
            ⟨"Book A".data, "Ann B".data, "checked out on Nov 2, 2025".data⟩],
            StopReason.sentinelYearFound)
    ∧ "Book A".data ≠ unknownTitle
    ∧ mkStructuredItem ⟨"checked out on Nov 2, 2025".data, false, [], true, "Ann B".data⟩
        = ⟨unknownTitle, "Ann B".data, "checked out on Nov 2, 2025".data⟩ :=
  ⟨by rfl, by decide, by rfl⟩

end SFPL
